import Mathlib

/-!
Verification of the personalized meta-search engine core.

This file gives a shallow embedding, in Lean 4, of the algorithmic core of the
repository: the deduplicating merger and the seven rank-aggregation strategies
of `supabase/functions/multi-search/index.ts`, the feedback-importance scorer
and learning-index merge of the `update-learning-index` edge function, and the
Spearman-based search-quality measure (SQM) of the `compute-sqm` edge function.
JavaScript numbers are modelled by `ℚ` (and by `ℝ` where `Math.sqrt` occurs),
JavaScript's stable `Array.prototype.sort` by a stable key-based insertion
sort, and the insertion-ordered JavaScript `Map` by an association list.
-/

namespace MetaSearch

/-! ### A stable sort by key, descending.

`sortD k l` models the JavaScript call `[...l].sort((a, b) => k(b) - k(a))`:
the result is ordered by strictly descending key except that elements with
equal keys keep their original relative order (JS sorts are stable). -/

variable {α : Type} {γ : Type} [LinearOrder γ]

/-- Insert `x` into `l`, placing it before the first element whose key is
at most `k x`.  Used by `sortD`; assuming `x` originally occurred before
every element of `l`, this preserves the relative order of equal keys. -/
def insD (k : α → γ) (x : α) : List α → List α
  | [] => [x]
  | y :: ys => if k y ≤ k x then x :: y :: ys else y :: insD k x ys

/-- Stable insertion sort by descending key. -/
def sortD (k : α → γ) : List α → List α
  | [] => []
  | x :: xs => insD k x (sortD k xs)

theorem mem_insD (k : α → γ) (x z : α) (l : List α) :
    z ∈ insD k x l ↔ z = x ∨ z ∈ l := by
  induction l with
  | nil => simp [insD]
  | cons y ys ih =>
      by_cases h : k y ≤ k x
      · simp [insD, h]
      · simp [insD, h, ih]
        tauto

theorem insD_perm (k : α → γ) (x : α) (l : List α) :
    (insD k x l).Perm (x :: l) := by
  induction l with
  | nil => simp [insD]
  | cons y ys ih =>
      by_cases h : k y ≤ k x
      · simp [insD, h]
      · simp only [insD, h, if_false]
        exact ((ih.cons y).trans (List.Perm.swap x y ys))

theorem sortD_perm (k : α → γ) (l : List α) : (sortD k l).Perm l := by
  induction l with
  | nil => simp [sortD]
  | cons x xs ih => exact (insD_perm k x (sortD k xs)).trans (ih.cons x)

theorem sorted_insD (k : α → γ) (x : α) (l : List α)
    (h : l.Sorted (fun a b => k b ≤ k a)) :
    (insD k x l).Sorted (fun a b => k b ≤ k a) := by
  induction l with
  | nil => simp [insD]
  | cons y ys ih =>
      rw [List.sorted_cons] at h
      by_cases hxy : k y ≤ k x
      · simp only [insD, hxy, if_true]
        refine List.Pairwise.cons ?_ (List.Pairwise.cons h.1 h.2)
        intro z hz
        rcases List.mem_cons.mp hz with rfl | hz
        · exact hxy
        · exact le_trans (h.1 z hz) hxy
      · simp only [insD, hxy, if_false]
        refine List.Pairwise.cons ?_ (ih h.2)
        intro z hz
        rcases (mem_insD k x z ys).mp hz with rfl | hz
        · exact le_of_lt (lt_of_not_le hxy)
        · exact h.1 z hz

theorem sortD_sorted (k : α → γ) (l : List α) :
    (sortD k l).Sorted (fun a b => k b ≤ k a) := by
  induction l with
  | nil => simp [sortD]
  | cons x xs ih => exact sorted_insD k x (sortD k xs) ih

theorem filter_insD [DecidableEq γ] (k : α → γ) (x : α) (l : List α) (s : γ) :
    (insD k x l).filter (fun a => k a = s) =
      if k x = s then x :: l.filter (fun a => k a = s)
      else l.filter (fun a => k a = s) := by
  induction l with
  | nil =>
      by_cases hx : k x = s <;> simp [insD, hx]
  | cons y ys ih =>
      by_cases hxy : k y ≤ k x
      · rw [insD, if_pos hxy]
        by_cases hx : k x = s <;> by_cases hy : k y = s <;>
          simp [List.filter_cons, hx, hy]
      · rw [insD, if_neg hxy, List.filter_cons, List.filter_cons, ih]
        have hylt : k x < k y := lt_of_not_le hxy
        by_cases hx : k x = s
        · have hy : ¬ (k y = s) := by
            intro hcon
            exact absurd (hcon.trans hx.symm) (ne_of_gt hylt)
          simp [hx, hy]
        · by_cases hy : k y = s <;> simp [hx, hy]

/-- Stability of `sortD`: the subsequence of elements with any fixed key is
exactly the same, in the same order, as in the input. -/
theorem filter_sortD [DecidableEq γ] (k : α → γ) (l : List α) (s : γ) :
    (sortD k l).filter (fun a => k a = s) = l.filter (fun a => k a = s) := by
  induction l with
  | nil => simp [sortD]
  | cons x xs ih =>
      rw [sortD, filter_insD, List.filter_cons]
      by_cases hx : k x = s <;> simp [hx, ih]

/-! ### Data model of the multi-search edge function -/

/-- One parsed result from one engine (`SerpResult` in the source). -/
structure SerpResult where
  position : ℕ
  title : String
  link : String
  snippet : String
  deriving DecidableEq, Repr

/-- One engine's result list (`EngineResult` in the source; the `error`
annotation plays no role in the algorithms and is omitted). -/
structure EngineResult where
  engine : String
  results : List SerpResult
  deriving DecidableEq, Repr

/-- A canonical deduplicated document (`MergedDoc` in the source).  The
`engines` field records `(engine, nativeRank)` pairs in encounter order. -/
structure MergedDoc where
  url : String
  title : String
  snippet : String
  engines : List (String × ℕ)
  deriving DecidableEq, Repr

/-- `N = 10`, the maximum number of results per engine. -/
def N : ℕ := 10

/-- `getRank doc engine`: the rank of `doc` in `engine`, or `N+1` if absent
(source: `getRank`). -/
def getRank (doc : MergedDoc) (engine : String) : ℕ :=
  match doc.engines.find? (fun e => e.1 == engine) with
  | some e => e.2
  | none => N + 1

/-! ### The seven aggregation strategies -/

/-- Borda score: `Σ (N+1 - rank)` over the engines reporting the document
(source: `bordaScore`). -/
def bordaScore (doc : MergedDoc) : ℤ :=
  (doc.engines.map (fun e => ((N : ℤ) + 1 - (e.2 : ℤ)))).sum

/-- Borda aggregation: stable sort by descending Borda score
(source: `aggregateBorda`). -/
def aggregateBorda (docs : List MergedDoc) : List MergedDoc :=
  sortD bordaScore docs

/-- Shimura pairwise fuzzy preference
`μ(a,b) = #{engines with rank(a) ≤ rank(b)} / #engines`. -/
def shimuraMu (engines : List String) (a b : MergedDoc) : ℚ :=
  ((engines.countP (fun eng => getRank a eng ≤ getRank b eng) : ℚ)) /
    (engines.length : ℚ)

/-- Shimura score of a document against the list of all other documents:
the minimum pairwise preference, or `1` when there is no other document
(the source's `minPref === Infinity` case). -/
def shimuraScore (engines : List String) (a : MergedDoc)
    (others : List MergedDoc) : ℚ :=
  match others.map (shimuraMu engines a) with
  | [] => 1
  | p :: ps => ps.foldl min p

/-- Each document paired with its Shimura score; document `i` is compared
against every document with index `j ≠ i`. -/
def shimuraScored (engines : List String) (docs : List MergedDoc) :
    List (MergedDoc × ℚ) :=
  docs.enum.map (fun p => (p.2, shimuraScore engines p.2 (docs.eraseIdx p.1)))

/-- Shimura aggregation (source: `aggregateShimura`): with no active engine,
fall back to Borda; otherwise sort the scored documents by descending score
(stably) and keep the documents. -/
def aggregateShimura (docs : List MergedDoc) (engines : List String) :
    List MergedDoc :=
  if engines.length = 0 then aggregateBorda docs
  else (sortD Prod.snd (shimuraScored engines docs)).map Prod.fst

/-- Frequency table of a list of ranks, in first-occurrence order, matching
the insertion order of the JavaScript `Map` built by `aggregateModal`. -/
def freqTable (rs : List ℕ) : List (ℕ × ℕ) :=
  rs.foldl
    (fun acc r =>
      if acc.any (fun p => p.1 == r) then
        acc.map (fun p => if p.1 == r then (p.1, p.2 + 1) else p)
      else acc ++ [(r, 1)])
    []

/-- Modal rank of a document: the most frequent rank across engines, ties
broken toward the smaller rank; starts from frequency 0 and rank `N+1`
(source: `modalRank` inside `aggregateModal`). -/
def modalRank (engines : List String) (doc : MergedDoc) : ℕ :=
  ((freqTable (engines.map (getRank doc))).foldl
    (fun best p =>
      if p.2 > best.1 ∨ (p.2 = best.1 ∧ p.1 < best.2) then (p.2, p.1) else best)
    (0, N + 1)).2

/-- Modal aggregation: stable sort by ascending modal rank
(source: `aggregateModal`). -/
def aggregateModal (docs : List MergedDoc) (engines : List String) :
    List MergedDoc :=
  sortD (fun d => -((modalRank engines d : ℤ))) docs

/-- MFO score: the best per-engine membership `max_i (N+1 - rank_i) / N`,
starting from 0 (source: `mfoScore` inside `aggregateMFO`). -/
def mfoScore (engines : List String) (doc : MergedDoc) : ℚ :=
  (engines.map (fun eng => (((N : ℚ) + 1 - (getRank doc eng : ℚ)) / (N : ℚ)))).foldl
    max 0

/-- MFO aggregation: stable sort by descending MFO score
(source: `aggregateMFO`). -/
def aggregateMFO (docs : List MergedDoc) (engines : List String) :
    List MergedDoc :=
  sortD (mfoScore engines) docs

/-- Mean of the document's per-engine ranks (absent engines contribute
`N+1`). -/
noncomputable def meanRank (engines : List String) (doc : MergedDoc) : ℝ :=
  ((engines.map (fun eng => (getRank doc eng : ℝ))).sum) / (engines.length : ℝ)

/-- Population variance of the document's per-engine ranks. -/
noncomputable def varRank (engines : List String) (doc : MergedDoc) : ℝ :=
  ((engines.map
      (fun eng => ((getRank doc eng : ℝ) - meanRank engines doc) ^ 2)).sum) /
    (engines.length : ℝ)

/-- MBV score `-(mean - 0.5 * sqrt variance)` (source: `mbvScore` inside
`aggregateMBV`, with `k = 0.5`). -/
noncomputable def mbvScore (engines : List String) (doc : MergedDoc) : ℝ :=
  -(meanRank engines doc - (1 / 2) * Real.sqrt (varRank engines doc))

/-- MBV aggregation: stable sort by descending MBV score
(source: `aggregateMBV`). -/
noncomputable def aggregateMBV (docs : List MergedDoc) (engines : List String) :
    List MergedDoc :=
  sortD (mbvScore engines) docs

/-- OWA weights `w_j = 2(m+1-j) / (m(m+1))`, `j = 1..m` (source:
`aggregateOWA`). -/
def owaWeights (m : ℕ) : List ℚ :=
  (List.range m).map
    (fun j => (2 * ((m : ℚ) + 1 - ((j : ℚ) + 1))) / ((m : ℚ) * ((m : ℚ) + 1)))

/-- The OWA-combined pairwise preference of `a` over `b`: binary per-engine
preferences, sorted descending, dotted with the OWA weights. -/
def owaPref (engines : List String) (a b : MergedDoc) : ℚ :=
  let prefs : List ℚ :=
    engines.map (fun eng => if getRank a eng ≤ getRank b eng then (1 : ℚ) else 0)
  let sortedPrefs := sortD (fun q : ℚ => q) prefs
  ((owaWeights engines.length).zip sortedPrefs).foldl
    (fun sum p => sum + p.1 * p.2) 0

/-- OWA score of a document: minimum OWA-combined preference against every
other document, or `1` when there is none. -/
def owaScore (engines : List String) (a : MergedDoc)
    (others : List MergedDoc) : ℚ :=
  match others.map (owaPref engines a) with
  | [] => 1
  | p :: ps => ps.foldl min p

/-- Each document paired with its OWA score. -/
def owaScored (engines : List String) (docs : List MergedDoc) :
    List (MergedDoc × ℚ) :=
  docs.enum.map (fun p => (p.2, owaScore engines p.2 (docs.eraseIdx p.1)))

/-- OWA aggregation (source: `aggregateOWA`). -/
def aggregateOWA (docs : List MergedDoc) (engines : List String) :
    List MergedDoc :=
  if engines.length = 0 then aggregateBorda docs
  else (sortD Prod.snd (owaScored engines docs)).map Prod.fst

/-- Biased Borda score: each engine's contribution is weighted by its SQM
score, defaulting to `1.0` (source: `biasedScore` inside `aggregateBiased`). -/
def biasedScore (sqmScores : String → Option ℚ) (doc : MergedDoc) : ℚ :=
  (doc.engines.map
    (fun e => (sqmScores e.1).getD 1 * ((N : ℚ) + 1 - (e.2 : ℚ)))).sum

/-- Biased aggregation: stable sort by descending biased score
(source: `aggregateBiased`). -/
def aggregateBiased (docs : List MergedDoc) (sqmScores : String → Option ℚ) :
    List MergedDoc :=
  sortD (biasedScore sqmScores) docs

/-- The strategy dispatcher (source: `rankResults`): a `switch` on the
strategy name whose `default` arm, shared with `"borda"`, is Borda. -/
noncomputable def rankResults (docs : List MergedDoc) (method : String)
    (activeEngines : List String) (sqmScores : String → Option ℚ) :
    List MergedDoc :=
  if method = "shimura" then aggregateShimura docs activeEngines
  else if method = "modal" then aggregateModal docs activeEngines
  else if method = "mfo" then aggregateMFO docs activeEngines
  else if method = "mbv" then aggregateMBV docs activeEngines
  else if method = "owa" then aggregateOWA docs activeEngines
  else if method = "biased" then aggregateBiased docs sqmScores
  else aggregateBorda docs

/-! ### The deduplicating merger

`deduplicateResults` walks every engine's results in order and groups them
by normalized URL in a JavaScript `Map`, which iterates in insertion order;
the `Map` is modelled by an association list. -/

/-- URL normalization: strip trailing slashes, then lowercase
(source: `r.link.replace(/\/+$/, "").toLowerCase()`), written on the
underlying character list so that it evaluates inside the kernel. -/
def normalizeUrl (s : String) : String :=
  ⟨((s.data.reverse.dropWhile (fun c => c == '/')).reverse).map Char.toLower⟩

/-- All `(engine, result)` entries in traversal order: engines in input
order, each engine's results in their order. -/
def entriesOf (ers : List EngineResult) : List (String × SerpResult) :=
  ers.flatMap (fun er => er.results.map (fun r => (er.engine, r)))

/-- Merging one further entry into an existing canonical document: append
the `(engine, rank)` pair and back-fill an empty snippet from a non-empty
one; the title is left untouched (source: the `existing` branch). -/
def addEngine (d : MergedDoc) (e : String × SerpResult) : MergedDoc :=
  { d with
    engines := d.engines ++ [(e.1, e.2.position)]
    snippet :=
      if d.snippet = "" ∧ ¬ e.2.snippet = "" then e.2.snippet else d.snippet }

/-- The canonical document created from the first entry for a URL
(source: the `urlMap.set` branch). -/
def initDoc (e : String × SerpResult) : MergedDoc :=
  { url := e.2.link
    title := e.2.title
    snippet := e.2.snippet
    engines := [(e.1, e.2.position)] }

/-- One step of the deduplication fold over the entries. -/
def dedupStep (st : List (String × MergedDoc)) (e : String × SerpResult) :
    List (String × MergedDoc) :=
  let key := normalizeUrl e.2.link
  if (st.lookup key).isSome then
    st.map (fun p => if p.1 == key then (p.1, addEngine p.2 e) else p)
  else st ++ [(key, initDoc e)]

/-- The deduplicating merger (source: `deduplicateResults`). -/
def deduplicateResults (ers : List EngineResult) : List MergedDoc :=
  ((entriesOf ers).foldl dedupStep []).map Prod.snd

/-- The entries whose link normalizes to `k`, in traversal order. -/
def occsOf (k : String) (entries : List (String × SerpResult)) :
    List (String × SerpResult) :=
  entries.filter (fun e => normalizeUrl e.2.link == k)

/-- The canonical document built from a nonempty occurrence list. -/
def mergedOf (e : String × SerpResult) (rest : List (String × SerpResult)) :
    MergedDoc :=
  rest.foldl addEngine (initDoc e)

theorem lookup_append {β : Type} (k : String) (l t : List (String × β)) :
    (l ++ t).lookup k = (l.lookup k).or (t.lookup k) := by
  induction l with
  | nil => simp
  | cons p l ih =>
      obtain ⟨a, b⟩ := p
      by_cases hk : k = a
      · simp [List.lookup, hk]
      · simp [List.lookup, beq_eq_false_iff_ne.mpr hk, ih]

theorem lookup_some_mem_keys {β : Type} (k : String) (l : List (String × β))
    (v : β) (h : l.lookup k = some v) : k ∈ l.map Prod.fst := by
  induction l with
  | nil => simp at h
  | cons p l ih =>
      obtain ⟨a, b⟩ := p
      by_cases hk : k = a
      · simp [hk]
      · simp only [List.lookup, beq_eq_false_iff_ne.mpr hk] at h
        simpa using Or.inr (ih h)

theorem lookup_none_not_mem {β : Type} (k : String) (l : List (String × β))
    (h : l.lookup k = none) : k ∉ l.map Prod.fst := by
  intro hmem
  induction l with
  | nil => simp at hmem
  | cons p l ih =>
      obtain ⟨a, b⟩ := p
      by_cases hk : k = a
      · simp [List.lookup, hk] at h
      · simp only [List.lookup, beq_eq_false_iff_ne.mpr hk] at h
        rcases List.mem_cons.mp hmem with h1 | h1
        · exact hk h1
        · exact ih h h1

theorem lookup_mapUpdate (k k0 : String) (g : MergedDoc → MergedDoc)
    (st : List (String × MergedDoc)) :
    (st.map (fun p => if p.1 == k0 then (p.1, g p.2) else p)).lookup k =
      if k = k0 then (st.lookup k).map g else st.lookup k := by
  induction st with
  | nil => by_cases hk : k = k0 <;> simp [hk]
  | cons p st ih =>
      obtain ⟨a, d⟩ := p
      simp only [List.map_cons]
      by_cases ha : a = k0
      · rw [if_pos (by simp [ha] : ((a, d).1 == k0) = true)]
        by_cases hk : k = a
        · subst hk; subst ha
          simp [List.lookup]
        · have hkk0 : ¬ k = k0 := fun hcon => hk (hcon.trans ha.symm)
          simp only [List.lookup, beq_eq_false_iff_ne.mpr hk]
          simpa [hkk0] using ih
      · rw [if_neg (by simp [ha] : ¬ ((a, d).1 == k0) = true)]
        by_cases hk : k = a
        · subst hk
          simp [List.lookup, ha]
        · simp only [List.lookup, beq_eq_false_iff_ne.mpr hk]
          exact ih

/-- The central characterization of the deduplication fold: the canonical
document stored at key `k` is determined by the state's entry at `k` and the
occurrences of `k` among the remaining entries. -/
theorem lookup_dedup_foldl (entries : List (String × SerpResult)) :
    ∀ (st : List (String × MergedDoc)) (k : String),
      ((entries.foldl dedupStep st).lookup k) =
        match st.lookup k with
        | some d => some ((occsOf k entries).foldl addEngine d)
        | none =>
            match occsOf k entries with
            | [] => none
            | e :: rest => some (mergedOf e rest)
      := by
  induction entries with
  | nil =>
      intro st k
      cases h : st.lookup k <;> simp [occsOf, h]
  | cons e rest ih =>
      intro st k
      have hfold : (e :: rest).foldl dedupStep st = rest.foldl dedupStep (dedupStep st e) := by
        simp [List.foldl_cons]
      rw [hfold, ih (dedupStep st e) k]
      set ke := normalizeUrl e.2.link with hke
      by_cases hcase : (st.lookup ke).isSome
      · obtain ⟨d0, hd0⟩ := Option.isSome_iff_exists.mp hcase
        have hstep : dedupStep st e =
            st.map (fun p => if p.1 == ke then (p.1, addEngine p.2 e) else p) := by
          simp [dedupStep, hcase]
        rw [hstep, lookup_mapUpdate k ke (fun d => addEngine d e) st]
        by_cases hk : k = ke
        · have hoccs : occsOf k (e :: rest) = e :: occsOf k rest := by
            simp [occsOf, List.filter_cons, hk, hke]
          rw [hoccs, if_pos hk, hk, hd0]
          simp [List.foldl_cons]
        · have hoccs : occsOf k (e :: rest) = occsOf k rest := by
            have : (normalizeUrl e.2.link == k) = false := by
              simp [← hke]
              exact fun hcon => hk hcon.symm
            simp [occsOf, List.filter_cons, this]
          rw [hoccs, if_neg hk]
      · have hnone : st.lookup ke = none := by
          cases h : st.lookup ke
          · rfl
          · rw [h] at hcase; simp at hcase
        have hstep : dedupStep st e = st ++ [(ke, initDoc e)] := by
          simp [dedupStep, hnone]
        rw [hstep]
        by_cases hk : k = ke
        · have hoccs : occsOf k (e :: rest) = e :: occsOf k rest := by
            simp [occsOf, List.filter_cons, hk, hke]
          rw [hoccs, hk, lookup_append ke st _, hnone]
          simp [List.lookup, mergedOf]
        · have hlook : (st ++ [(ke, initDoc e)]).lookup k = st.lookup k := by
            rw [lookup_append]
            have : ([(ke, initDoc e)] : List (String × MergedDoc)).lookup k = none := by
              simp [List.lookup, beq_eq_false_iff_ne.mpr hk]
            rw [this, Option.or_none]
          have hoccs : occsOf k (e :: rest) = occsOf k rest := by
            have : (normalizeUrl e.2.link == k) = false := by
              simp [← hke]
              exact fun hcon => hk hcon.symm
            simp [occsOf, List.filter_cons, this]
          rw [hoccs, hlook]

theorem nodup_keys_dedup_foldl (entries : List (String × SerpResult)) :
    ∀ st : List (String × MergedDoc), (st.map Prod.fst).Nodup →
      (((entries.foldl dedupStep st)).map Prod.fst).Nodup := by
  induction entries with
  | nil => intro st h; simpa using h
  | cons e rest ih =>
      intro st h
      rw [List.foldl_cons]
      refine ih (dedupStep st e) ?_
      set ke := normalizeUrl e.2.link with hke
      by_cases hcase : (st.lookup ke).isSome
      · have hstep : dedupStep st e =
            st.map (fun p => if p.1 == ke then (p.1, addEngine p.2 e) else p) := by
          simp [dedupStep, hcase]
        have hkeys :
            (st.map (fun p => if p.1 == ke then (p.1, addEngine p.2 e) else p)).map
                Prod.fst = st.map Prod.fst := by
          rw [List.map_map]
          refine List.map_congr_left ?_
          intro p _
          by_cases hp : p.1 = ke <;> simp [hp]
        rw [hstep, hkeys]
        exact h
      · have hnone : st.lookup ke = none := by
          cases hlk : st.lookup ke
          · rfl
          · rw [hlk] at hcase; simp at hcase
        have hstep : dedupStep st e = st ++ [(ke, initDoc e)] := by
          simp [dedupStep, hnone]
        rw [hstep, List.map_append]
        rw [List.nodup_append]
        refine ⟨h, by simp, ?_⟩
        intro a ha hmem
        have : a = ke := by simpa using hmem
        exact lookup_none_not_mem ke st hnone (this ▸ ha)

theorem mem_values_lookup {β : Type} (st : List (String × β))
    (h : (st.map Prod.fst).Nodup) (d : β) (hd : d ∈ st.map Prod.snd) :
    ∃ k, st.lookup k = some d := by
  induction st with
  | nil => simp at hd
  | cons p st ih =>
      obtain ⟨a, v⟩ := p
      rcases List.mem_cons.mp hd with h1 | h1
      · exact ⟨a, by simp [List.lookup, h1]⟩
      · have hnd : (st.map Prod.fst).Nodup := (List.nodup_cons.mp h).2
        obtain ⟨k, hk⟩ := ih hnd h1
        have hkmem : k ∈ st.map Prod.fst := lookup_some_mem_keys k st d hk
        have hka : ¬ k = a := by
          intro hcon
          exact (List.nodup_cons.mp h).1 (hcon ▸ hkmem)
        exact ⟨k, by simp [List.lookup, beq_eq_false_iff_ne.mpr hka, hk]⟩

/-- Every deduplicated document is determined by its nonempty occurrence
list: it is the document built from the first occurrence by merging in the
later ones. -/
theorem dedup_doc_char (ers : List EngineResult) (d : MergedDoc)
    (hd : d ∈ deduplicateResults ers) :
    ∃ e rest, occsOf (normalizeUrl e.2.link) (entriesOf ers) = e :: rest ∧
      d = mergedOf e rest := by
  have hnodup : (((entriesOf ers).foldl dedupStep []).map Prod.fst).Nodup :=
    nodup_keys_dedup_foldl (entriesOf ers) [] (by simp)
  obtain ⟨k, hk⟩ :=
    mem_values_lookup ((entriesOf ers).foldl dedupStep []) hnodup d hd
  rw [lookup_dedup_foldl (entriesOf ers) [] k] at hk
  simp only [List.lookup_nil] at hk
  cases hocc : occsOf k (entriesOf ers) with
  | nil => rw [hocc] at hk; simp at hk
  | cons e rest =>
      rw [hocc] at hk
      have hde : d = mergedOf e rest := by
        simpa using hk.symm
      have hkey : normalizeUrl e.2.link = k := by
        have he : e ∈ occsOf k (entriesOf ers) := by
          rw [hocc]; exact List.mem_cons_self e rest
        have := List.of_mem_filter he
        simpa using this
      exact ⟨e, rest, by rw [hkey]; exact hocc, hde⟩

theorem foldl_addEngine_title (rest : List (String × SerpResult)) :
    ∀ d0 : MergedDoc, (rest.foldl addEngine d0).title = d0.title := by
  induction rest with
  | nil => intro d0; rfl
  | cons e es ih => intro d0; rw [List.foldl_cons, ih]; rfl

theorem foldl_addEngine_url (rest : List (String × SerpResult)) :
    ∀ d0 : MergedDoc, (rest.foldl addEngine d0).url = d0.url := by
  induction rest with
  | nil => intro d0; rfl
  | cons e es ih => intro d0; rw [List.foldl_cons, ih]; rfl

theorem foldl_addEngine_engines (rest : List (String × SerpResult)) :
    ∀ d0 : MergedDoc, (rest.foldl addEngine d0).engines =
      d0.engines ++ rest.map (fun e => (e.1, e.2.position)) := by
  induction rest with
  | nil => intro d0; simp
  | cons e es ih =>
      intro d0
      rw [List.foldl_cons, ih]
      simp [addEngine]

/-- The first non-empty string of a list, or `""`. -/
def firstNonempty : List String → String
  | [] => ""
  | s :: rest => if s = "" then firstNonempty rest else s

theorem foldl_addEngine_snippet (rest : List (String × SerpResult)) :
    ∀ d0 : MergedDoc, (rest.foldl addEngine d0).snippet =
      if d0.snippet = "" then
        firstNonempty (rest.map (fun e => e.2.snippet))
      else d0.snippet := by
  induction rest with
  | nil => intro d0; by_cases h : d0.snippet = "" <;> simp [firstNonempty, h]
  | cons e es ih =>
      intro d0
      rw [List.foldl_cons, ih]
      by_cases hd0 : d0.snippet = ""
      · by_cases he : e.2.snippet = ""
        · simp [addEngine, hd0, he, firstNonempty]
        · simp [addEngine, hd0, he, firstNonempty]
      · simp [addEngine, hd0, firstNonempty]

/-! ### Generic facts about the `foldl min` pattern used by Shimura/OWA -/

theorem foldl_min_le_init (ps : List ℚ) : ∀ p : ℚ, ps.foldl min p ≤ p := by
  induction ps with
  | nil => intro p; exact le_refl p
  | cons q qs ih =>
      intro p
      exact le_trans (ih (min p q)) (min_le_left p q)

theorem foldl_min_le (ps : List ℚ) :
    ∀ p x : ℚ, x ∈ p :: ps → ps.foldl min p ≤ x := by
  induction ps with
  | nil =>
      intro p x hx
      rcases List.mem_cons.mp hx with rfl | hx
      · exact le_refl x
      · simp at hx
  | cons q qs ih =>
      intro p x hx
      rcases List.mem_cons.mp hx with rfl | hx
      · exact le_trans (foldl_min_le_init qs (min x q)) (min_le_left x q)
      · rcases List.mem_cons.mp hx with rfl | hx
        · exact le_trans (foldl_min_le_init qs (min p x)) (min_le_right p x)
        · exact ih (min p q) x (List.mem_cons_of_mem _ hx)

theorem foldl_min_mem (ps : List ℚ) : ∀ p : ℚ, ps.foldl min p ∈ p :: ps := by
  induction ps with
  | nil => intro p; simp
  | cons q qs ih =>
      intro p
      have h := ih (min p q)
      rw [List.foldl_cons]
      rcases List.mem_cons.mp h with h1 | h1
      · rw [h1]
        rcases min_choice p q with hm | hm <;> rw [hm]
        · exact List.mem_cons_self _ _
        · exact List.mem_cons_of_mem _ (List.mem_cons_self _ _)
      · exact List.mem_cons_of_mem _ (List.mem_cons_of_mem _ h1)

/-! ### Permutation facts for the aggregators -/

theorem shimuraScored_map_fst (engines : List String) (docs : List MergedDoc) :
    (shimuraScored engines docs).map Prod.fst = docs := by
  unfold shimuraScored
  rw [List.map_map]
  have h : (Prod.fst ∘ fun p : ℕ × MergedDoc =>
      (p.2, shimuraScore engines p.2 (docs.eraseIdx p.1))) = Prod.snd := rfl
  rw [h, List.enum_map_snd]

theorem owaScored_map_fst (engines : List String) (docs : List MergedDoc) :
    (owaScored engines docs).map Prod.fst = docs := by
  unfold owaScored
  rw [List.map_map]
  have h : (Prod.fst ∘ fun p : ℕ × MergedDoc =>
      (p.2, owaScore engines p.2 (docs.eraseIdx p.1))) = Prod.snd := rfl
  rw [h, List.enum_map_snd]

theorem aggregateBorda_perm (docs : List MergedDoc) :
    (aggregateBorda docs).Perm docs :=
  sortD_perm bordaScore docs

theorem aggregateShimura_perm (docs : List MergedDoc) (engines : List String) :
    (aggregateShimura docs engines).Perm docs := by
  unfold aggregateShimura
  by_cases h : engines.length = 0
  · simpa [h] using aggregateBorda_perm docs
  · rw [if_neg h]
    have hp := (sortD_perm (Prod.snd) (shimuraScored engines docs)).map Prod.fst
    rwa [shimuraScored_map_fst] at hp

theorem aggregateOWA_perm (docs : List MergedDoc) (engines : List String) :
    (aggregateOWA docs engines).Perm docs := by
  unfold aggregateOWA
  by_cases h : engines.length = 0
  · simpa [h] using aggregateBorda_perm docs
  · rw [if_neg h]
    have hp := (sortD_perm (Prod.snd) (owaScored engines docs)).map Prod.fst
    rwa [owaScored_map_fst] at hp

/-! ### Claim theorems for the aggregation engine -/

/-- Claim C1: with `N = 10`, the Borda score of a document is the sum of
`N + 1 - nativeRank` over the sources reporting it, the Borda output is
sorted non-increasingly in this score, and documents with equal score keep
their original deduplication order (the sort is stable). -/
theorem borda_claim (docs : List MergedDoc) :
    (∀ d : MergedDoc,
        bordaScore d = (d.engines.map (fun e => (N : ℤ) + 1 - (e.2 : ℤ))).sum) ∧
    (aggregateBorda docs).Sorted (fun a b => bordaScore b ≤ bordaScore a) ∧
    (∀ s : ℤ,
        (aggregateBorda docs).filter (fun d => bordaScore d = s) =
          docs.filter (fun d => bordaScore d = s)) :=
  ⟨fun _ => rfl, sortD_sorted bordaScore docs,
    fun s => filter_sortD bordaScore docs s⟩

/-- Claim C9: any strategy name other than the seven recognized ones makes
the dispatcher return exactly the Borda ordering (the `switch` falls through
to its `default` arm, which is `aggregateBorda`); no failure is possible. -/
theorem dispatcher_fallback_claim (docs : List MergedDoc)
    (engines : List String) (sqm : String → Option ℚ) (method : String)
    (h : method ∉
      (["shimura", "modal", "mfo", "mbv", "owa", "biased", "borda"] :
        List String)) :
    rankResults docs method engines sqm = aggregateBorda docs := by
  simp only [List.mem_cons, List.not_mem_nil, or_false, not_or] at h
  obtain ⟨h1, h2, h3, h4, h5, h6, h7⟩ := h
  simp [rankResults, h1, h2, h3, h4, h5, h6]

/-- Witness for C9 at the unrecognized strategy name `"fuzzy"`. -/
theorem dispatcher_fallback_claim_witness :
    rankResults [] "fuzzy" ["google"] (fun _ => none) = aggregateBorda [] :=
  dispatcher_fallback_claim [] ["google"] (fun _ => none) "fuzzy" (by decide)

/-- Claim C10: for every document list, strategy name, active-source list
and source-weight mapping, the dispatcher's output is a permutation of its
input — the same canonical documents, each exactly once. -/
theorem rank_results_perm_claim (docs : List MergedDoc) (method : String)
    (engines : List String) (sqm : String → Option ℚ) :
    (rankResults docs method engines sqm).Perm docs := by
  unfold rankResults
  by_cases h1 : method = "shimura"
  · simpa [h1] using aggregateShimura_perm docs engines
  · by_cases h2 : method = "modal"
    · simpa [h1, h2, aggregateModal] using
        sortD_perm (fun d => -((modalRank engines d : ℤ))) docs
    · by_cases h3 : method = "mfo"
      · simpa [h1, h2, h3, aggregateMFO] using sortD_perm (mfoScore engines) docs
      · by_cases h4 : method = "mbv"
        · simpa [h1, h2, h3, h4, aggregateMBV] using
            sortD_perm (mbvScore engines) docs
        · by_cases h5 : method = "owa"
          · simpa [h1, h2, h3, h4, h5] using aggregateOWA_perm docs engines
          · by_cases h6 : method = "biased"
            · simpa [h1, h2, h3, h4, h5, h6, aggregateBiased] using
                sortD_perm (biasedScore sqm) docs
            · simpa [h1, h2, h3, h4, h5, h6] using aggregateBorda_perm docs

/-- Claim C8: with a nonempty active-source list, Shimura aggregation
scores each document by the minimum, over all other documents `b`, of
`μ(a,b) = #{sources with rank(a) ≤ rank(b)} / #sources`, scores a
single-document input `1`, and sorts descending by score (stably). -/
theorem shimura_claim (docs : List MergedDoc) (engines : List String)
    (h : engines ≠ []) :
    (aggregateShimura docs engines =
      (sortD Prod.snd (shimuraScored engines docs)).map Prod.fst) ∧
    ((sortD Prod.snd (shimuraScored engines docs)).Sorted
      (fun x y => y.2 ≤ x.2)) ∧
    (∀ (i : ℕ) (a : MergedDoc), docs[i]? = some a →
        (shimuraScored engines docs)[i]? =
          some (a, shimuraScore engines a (docs.eraseIdx i))) ∧
    (∀ a b : MergedDoc,
        shimuraMu engines a b =
          ((engines.countP (fun eng => getRank a eng ≤ getRank b eng) : ℚ)) /
            (engines.length : ℚ)) ∧
    (∀ (a : MergedDoc) (others : List MergedDoc),
        (∀ b ∈ others, shimuraScore engines a others ≤ shimuraMu engines a b) ∧
        (others ≠ [] →
          ∃ b ∈ others, shimuraScore engines a others = shimuraMu engines a b)) ∧
    (∀ a : MergedDoc, shimuraScore engines a [] = 1) ∧
    (∀ d : MergedDoc, aggregateShimura [d] engines = [d]) := by
  have h0 : ¬ engines.length = 0 := by
    simpa [List.length_eq_zero] using h
  refine ⟨?_, sortD_sorted Prod.snd _, ?_, fun _ _ => rfl, ?_, fun _ => rfl, ?_⟩
  · simp [aggregateShimura, h0]
  · intro i a ha
    unfold shimuraScored
    rw [List.getElem?_map, List.getElem?_enum, ha]
    rfl
  · intro a others
    constructor
    · intro b hb
      cases others with
      | nil => simp at hb
      | cons o os =>
          have hmem : shimuraMu engines a b ∈
              shimuraMu engines a o :: os.map (shimuraMu engines a) := by
            rcases List.mem_cons.mp hb with rfl | hb
            · exact List.mem_cons_self _ _
            · exact List.mem_cons_of_mem _ (List.mem_map_of_mem _ hb)
          simpa [shimuraScore] using
            foldl_min_le (os.map (shimuraMu engines a)) (shimuraMu engines a o)
              (shimuraMu engines a b) hmem
    · intro hne
      cases others with
      | nil => exact absurd rfl hne
      | cons o os =>
          have hmem := foldl_min_mem (os.map (shimuraMu engines a))
            (shimuraMu engines a o)
          have hmem2 : shimuraScore engines a (o :: os) ∈
              (o :: os).map (shimuraMu engines a) := by
            simpa [shimuraScore] using hmem
          obtain ⟨b, hb, hbe⟩ := List.mem_map.mp hmem2
          exact ⟨b, hb, hbe.symm⟩
  · intro d
    simp [aggregateShimura, h0, shimuraScored, List.enum_cons, sortD, insD]

/-- Witness for C8: a two-document, one-source instance of the claim. -/
theorem shimura_claim_witness :
    aggregateShimura
        [{ url := "a", title := "", snippet := "", engines := [("g", 1)] }]
        ["g"] =
      [{ url := "a", title := "", snippet := "", engines := [("g", 1)] }] :=
  (shimura_claim
    [{ url := "a", title := "", snippet := "", engines := [("g", 1)] }]
    ["g"] (by decide)).2.2.2.2.2.2
    { url := "a", title := "", snippet := "", engines := [("g", 1)] }

/-! ### Claims about the merger: title/snippet filling (C5) and
source-name uniqueness (C7) -/

/-- Two sources report the same URL; the first has an empty title, the
second the non-empty title `"Foo"`. -/
def ersTitle : List EngineResult :=
  [{ engine := "g",
     results := [{ position := 1, title := "", link := "u", snippet := "" }] },
   { engine := "b",
     results := [{ position := 1, title := "Foo", link := "u", snippet := "" }] }]

/-- Counterexample to claim C5 as stated: the first source reporting `"u"`
has an empty title and a later source supplies the non-empty title `"Foo"`,
yet the canonical document keeps the empty title — `deduplicateResults`
back-fills only the snippet, never the title. -/
theorem dedup_title_cex :
    deduplicateResults ersTitle =
      [{ url := "u", title := "", snippet := "",
         engines := [("g", 1), ("b", 1)] }] ∧
    ¬ ("Foo" : String) = "" :=
  ⟨by decide, by decide⟩

/-- Claim C5 (amended): every canonical document gets its `url` and `title`
from the *first* entry whose link normalizes to its key — even when that
title is empty and a later source supplies a non-empty one — while the
snippet is the first non-empty snippet among all reporting entries in
traversal order (or `""` when all are empty), so a non-empty snippet is
never overwritten. -/
theorem dedup_fill_claim (ers : List EngineResult) (d : MergedDoc)
    (hd : d ∈ deduplicateResults ers) :
    ∃ e rest, occsOf (normalizeUrl e.2.link) (entriesOf ers) = e :: rest ∧
      d.url = e.2.link ∧
      d.title = e.2.title ∧
      d.snippet = firstNonempty ((e :: rest).map (fun x => x.2.snippet)) := by
  obtain ⟨e, rest, hocc, hde⟩ := dedup_doc_char ers d hd
  refine ⟨e, rest, hocc, ?_, ?_, ?_⟩
  · rw [hde]
    unfold mergedOf
    rw [foldl_addEngine_url]
    rfl
  · rw [hde]
    unfold mergedOf
    rw [foldl_addEngine_title]
    rfl
  · rw [hde]
    unfold mergedOf
    rw [foldl_addEngine_snippet]
    by_cases he : e.2.snippet = "" <;>
      simp [initDoc, he, firstNonempty]

/-- Two sources report the same URL; only the second supplies a snippet. -/
def ersFill : List EngineResult :=
  [{ engine := "g",
     results := [{ position := 1, title := "T", link := "u", snippet := "" }] },
   { engine := "b",
     results := [{ position := 2, title := "T2", link := "u", snippet := "S" }] }]

/-- Witness for the amended C5 on a concrete input: the canonical document
keeps the first title `"T"` and back-fills the snippet `"S"`. -/
theorem dedup_fill_claim_witness :
    ({ url := "u", title := "T", snippet := "S",
       engines := [("g", 1), ("b", 2)] } : MergedDoc) ∈
        deduplicateResults ersFill ∧
    ∃ e rest, occsOf (normalizeUrl e.2.link) (entriesOf ersFill) = e :: rest ∧
      ({ url := "u", title := "T", snippet := "S",
         engines := [("g", 1), ("b", 2)] } : MergedDoc).url = e.2.link ∧
      ({ url := "u", title := "T", snippet := "S",
         engines := [("g", 1), ("b", 2)] } : MergedDoc).title = e.2.title ∧
      ({ url := "u", title := "T", snippet := "S",
         engines := [("g", 1), ("b", 2)] } : MergedDoc).snippet =
        firstNonempty ((e :: rest).map (fun x => x.2.snippet)) :=
  ⟨by decide, dedup_fill_claim ersFill _ (by decide)⟩

theorem mem_entriesOf_fst (ers : List EngineResult) (x : String × SerpResult)
    (hx : x ∈ entriesOf ers) : x.1 ∈ ers.map (fun er => er.engine) := by
  unfold entriesOf at hx
  rw [List.mem_flatMap] at hx
  obtain ⟨er, her, hxr⟩ := hx
  obtain ⟨r, _, rfl⟩ := List.mem_map.mp hxr
  exact List.mem_map.mpr ⟨er, her, rfl⟩

theorem filter_length_le_one {β' : Type} (keyf : β' → String) (l : List β')
    (k : String) (h : (l.map keyf).Nodup) :
    (l.filter (fun x => keyf x == k)).length ≤ 1 := by
  induction l with
  | nil => simp
  | cons a t ih =>
      rw [List.map_cons, List.nodup_cons] at h
      rw [List.filter_cons]
      by_cases ha : (keyf a == k) = true
      · have hk : keyf a = k := by simpa using ha
        have hnil : t.filter (fun x => keyf x == k) = [] := by
          rw [List.filter_eq_nil_iff]
          intro x hx hcon
          have hxk : keyf x = k := by simpa using hcon
          refine h.1 ?_
          rw [hk, ← hxk]
          exact List.mem_map_of_mem keyf hx
        simp [ha, hnil]
      · simp only [ha, if_false]
        exact ih h.2

theorem nodup_occs_fst (ers : List EngineResult) (k : String)
    (h1 : (ers.map (fun er => er.engine)).Nodup)
    (h2 : ∀ er ∈ ers, (er.results.map (fun r => normalizeUrl r.link)).Nodup) :
    ((occsOf k (entriesOf ers)).map Prod.fst).Nodup := by
  induction ers with
  | nil => simp [occsOf, entriesOf]
  | cons er rest ih =>
      rw [List.map_cons, List.nodup_cons] at h1
      have hent : entriesOf (er :: rest) =
          er.results.map (fun r => (er.engine, r)) ++ entriesOf rest := by
        unfold entriesOf
        rw [List.flatMap_cons]
      unfold occsOf
      rw [hent, List.filter_append, List.map_append, List.nodup_append]
      refine ⟨?_, ?_, ?_⟩
      · rw [List.filter_map, List.map_map]
        have hconv :
            ((fun e : String × SerpResult => normalizeUrl e.2.link == k) ∘
              (fun r : SerpResult => (er.engine, r))) =
            (fun r : SerpResult => normalizeUrl r.link == k) := rfl
        rw [hconv]
        have hlen := filter_length_le_one (fun r => normalizeUrl r.link)
          er.results k (h2 er (List.mem_cons_self _ _))
        cases hf : er.results.filter (fun r => normalizeUrl r.link == k) with
        | nil => simp [hf]
        | cons x xs =>
            rw [hf] at hlen
            have hxs : xs = [] := by
              cases xs with
              | nil => rfl
              | cons y ys => simp at hlen
            subst hxs
            simp [hf]
      · exact ih h1.2 (fun er' h' => h2 er' (List.mem_cons_of_mem _ h'))
      · intro a ha hmem
        obtain ⟨x, hx, rfl⟩ := List.mem_map.mp ha
        have hx1 : x ∈ er.results.map (fun r => (er.engine, r)) :=
          List.mem_of_mem_filter hx
        obtain ⟨r, _, rfl⟩ := List.mem_map.mp hx1
        obtain ⟨y, hy, hyy⟩ := List.mem_map.mp hmem
        have hy1 : y ∈ entriesOf rest := List.mem_of_mem_filter hy
        have hy2 : y.1 ∈ rest.map (fun er => er.engine) :=
          mem_entriesOf_fst rest y hy1
        have hyy2 : y.1 = er.engine := hyy
        exact h1.1 (hyy2 ▸ hy2)

/-- One source reports two URLs that normalize to the same key. -/
def ersDup : List EngineResult :=
  [{ engine := "g",
     results := [{ position := 1, title := "t", link := "u/", snippet := "" },
                 { position := 2, title := "t", link := "u", snippet := "" }] }]

/-- Counterexample to claim C7 as stated: when one source reports two
entries whose URLs normalize to the same key, the canonical document's
`sourceRanks` carries that source name twice — the merger pushes an
`(engine, rank)` pair unconditionally. -/
theorem dedup_unique_cex :
    (deduplicateResults ersDup).map (fun d => d.engines.map Prod.fst) =
      [["g", "g"]] ∧
    ¬ (["g", "g"] : List String).Nodup :=
  ⟨by decide, by decide⟩

/-- Claim C7 (amended): `sourceRanks` is a list of `(source, rank)` pairs,
one per reported entry; the source names in a canonical document are
pairwise distinct provided the input source names are pairwise distinct and
each source's reported URLs have pairwise distinct normalized keys — a
source reporting two URLs with the same key contributes two pairs. -/
theorem dedup_unique_claim (ers : List EngineResult)
    (h1 : (ers.map (fun er => er.engine)).Nodup)
    (h2 : ∀ er ∈ ers, (er.results.map (fun r => normalizeUrl r.link)).Nodup)
    (d : MergedDoc) (hd : d ∈ deduplicateResults ers) :
    (d.engines.map Prod.fst).Nodup := by
  obtain ⟨e, rest, hocc, hde⟩ := dedup_doc_char ers d hd
  have heng : d.engines = (e :: rest).map (fun x => (x.1, x.2.position)) := by
    rw [hde]
    unfold mergedOf
    rw [foldl_addEngine_engines]
    simp [initDoc]
  have h3 := nodup_occs_fst ers (normalizeUrl e.2.link) h1 h2
  rw [hocc] at h3
  rw [heng, List.map_map]
  have hconv :
      (Prod.fst ∘ fun x : String × SerpResult => (x.1, x.2.position)) =
        Prod.fst := rfl
  rw [hconv]
  exact h3

/-- Two distinct sources, each reporting the shared URL once. -/
def ersOk : List EngineResult :=
  [{ engine := "g",
     results := [{ position := 1, title := "t", link := "a", snippet := "" }] },
   { engine := "b",
     results := [{ position := 1, title := "t", link := "a", snippet := "" }] }]

/-- Witness for the amended C7 on a concrete input. -/
theorem dedup_unique_claim_witness :
    ({ url := "a", title := "t", snippet := "",
       engines := [("g", 1), ("b", 1)] } : MergedDoc) ∈
        deduplicateResults ersOk ∧
    (({ url := "a", title := "t", snippet := "",
        engines := [("g", 1), ("b", 1)] } : MergedDoc).engines.map
          Prod.fst).Nodup :=
  ⟨by decide, dedup_unique_claim ersOk (by decide) (by decide) _ (by decide)⟩

/-! ### The importance scorer (update-learning-index / compute-sqm)

A feedback row mirrors a `user_feedback` record; nullable columns are
`Option`s and the JavaScript `?? 0` / `?? 999` defaults are `getD`. -/

structure FbRow where
  click_order : Option ℕ
  dwell_time_ms : Option ℕ
  printed : Bool
  saved : Bool
  bookmarked : Bool
  emailed : Bool
  copy_paste_chars : Option ℕ
  deriving DecidableEq, Repr

/-- The per-user weight profile row (`profiles` table). -/
structure Profile where
  weight_v : ℚ
  weight_t : ℚ
  weight_p : ℚ
  weight_s : ℚ
  weight_b : ℚ
  weight_e : ℚ
  weight_c : ℚ
  deriving DecidableEq, Repr

/-- `Math.max(...rows.map(f => f.click_order ?? 0), 1)`. -/
def maxClickOrder (rows : List FbRow) : ℕ :=
  (rows.map (fun f => f.click_order.getD 0)).foldl max 1

/-- `Math.max(...rows.map(f => f.dwell_time_ms ?? 0), 1)`. -/
def maxDwell (rows : List FbRow) : ℕ :=
  (rows.map (fun f => f.dwell_time_ms.getD 0)).foldl max 1

/-- `Math.max(...rows.map(f => f.copy_paste_chars ?? 0), 1)`. -/
def maxCopy (rows : List FbRow) : ℕ :=
  (rows.map (fun f => f.copy_paste_chars.getD 0)).foldl max 1

/-- `V = bestFb.click_order ? 1 - (click_order - 1)/maxClickOrder : 0`;
the JavaScript truthiness test makes both `null` and `0` produce `0`. -/
def signalV (f : FbRow) (m : ℕ) : ℚ :=
  match f.click_order with
  | none => 0
  | some c => if c = 0 then 0 else 1 - ((c : ℚ) - 1) / (m : ℚ)

/-- `T = (dwell_time_ms ?? 0) / maxDwell`. -/
def signalT (f : FbRow) (m : ℕ) : ℚ :=
  ((f.dwell_time_ms.getD 0 : ℚ)) / (m : ℚ)

/-- `C = (copy_paste_chars ?? 0) / maxCopy`. -/
def signalC (f : FbRow) (m : ℕ) : ℚ :=
  ((f.copy_paste_chars.getD 0 : ℚ)) / (m : ℚ)

/-- The Beg–Ahmad importance `I(d)` of a feedback row, with the session
maxima computed from `rows` (source: both edge functions compute the same
seven-term weighted sum). -/
def importanceOf (p : Profile) (rows : List FbRow) (f : FbRow) : ℚ :=
  p.weight_v * signalV f (maxClickOrder rows) +
  p.weight_t * signalT f (maxDwell rows) +
  p.weight_p * (if f.printed then 1 else 0) +
  p.weight_s * (if f.saved then 1 else 0) +
  p.weight_b * (if f.bookmarked then 1 else 0) +
  p.weight_e * (if f.emailed then 1 else 0) +
  p.weight_c * signalC f (maxCopy rows)

/-- `fb.click_order ?? 999`, the comparison key for picking the
representative feedback instance. -/
def effClick (f : FbRow) : ℕ :=
  f.click_order.getD 999

/-- One step of the best-feedback scan
(source: `if (fb && (!bestFb || (fb.click_order ?? 999) <
(bestFb.click_order ?? 999))) bestFb = fb`). -/
def bestStep (best : Option FbRow) (ofb : Option FbRow) : Option FbRow :=
  match ofb with
  | none => best
  | some fb =>
      match best with
      | none => some fb
      | some b => if effClick fb < effClick b then some fb else some b

/-- The representative feedback instance of a canonical document: scan the
per-result feedback lookups in order, keeping the strictly smaller
effective click order. -/
def bestFb (fbs : List (Option FbRow)) : Option FbRow :=
  fbs.foldl bestStep none

/-- A canonical document of one session together with the feedback lookup
of each of its per-engine result rows (`fbMap.get(rid)` for each rid). -/
structure SessionDoc where
  url : String
  fbs : List (Option FbRow)
  deriving DecidableEq, Repr

/-- The per-document importance list of a session: documents without any
recorded feedback are skipped (`if (!bestFb) continue`). -/
def sessionImportance (p : Profile) (rows : List FbRow)
    (docs : List SessionDoc) : List (String × ℚ) :=
  docs.filterMap
    (fun d => (bestFb d.fbs).map (fun f => (d.url, importanceOf p rows f)))

theorem le_foldl_max_init (l : List ℕ) : ∀ a : ℕ, a ≤ l.foldl max a := by
  induction l with
  | nil => intro a; exact le_refl a
  | cons x xs ih =>
      intro a
      exact le_trans (le_max_left a x) (ih (max a x))

theorem mem_le_foldl_max (l : List ℕ) :
    ∀ a x : ℕ, x ∈ l → x ≤ l.foldl max a := by
  induction l with
  | nil => intro a x hx; simp at hx
  | cons y ys ih =>
      intro a x hx
      rcases List.mem_cons.mp hx with rfl | hx
      · exact le_trans (le_max_right a x) (le_foldl_max_init ys (max a x))
      · exact ih (max a y) x hx

theorem bestFb_foldl_mem (fbs : List (Option FbRow)) :
    ∀ (acc : Option FbRow) (f : FbRow),
      fbs.foldl bestStep acc = some f → some f ∈ fbs ∨ acc = some f := by
  induction fbs with
  | nil => intro acc f h; exact Or.inr h
  | cons x xs ih =>
      intro acc f h
      rw [List.foldl_cons] at h
      rcases ih (bestStep acc x) f h with hmem | hacc
      · exact Or.inl (List.mem_cons_of_mem _ hmem)
      · cases x with
        | none => exact Or.inr hacc
        | some fb =>
            cases acc with
            | none =>
                simp [bestStep] at hacc
                exact Or.inl (by rw [hacc]; exact List.mem_cons_self _ _)
            | some b =>
                by_cases hlt : effClick fb < effClick b
                · simp [bestStep, hlt] at hacc
                  exact Or.inl (by rw [hacc]; exact List.mem_cons_self _ _)
                · simp [bestStep, hlt] at hacc
                  exact Or.inr (by rw [hacc])

theorem bestFb_foldl_min (fbs : List (Option FbRow)) :
    ∀ (acc : Option FbRow) (f : FbRow),
      fbs.foldl bestStep acc = some f →
        (∀ g : FbRow, some g ∈ fbs → effClick f ≤ effClick g) ∧
        (∀ b : FbRow, acc = some b → effClick f ≤ effClick b) := by
  induction fbs with
  | nil =>
      intro acc f h
      simp only [List.foldl_nil] at h
      refine ⟨fun g hg => absurd hg (by simp), fun b hb => ?_⟩
      rw [h] at hb
      exact le_of_eq (congrArg effClick (Option.some_injective _ hb))
  | cons x xs ih =>
      intro acc f h
      rw [List.foldl_cons] at h
      obtain ⟨ihall, ihacc⟩ := ih (bestStep acc x) f h
      have hstep : ∀ b : FbRow, acc = some b → effClick f ≤ effClick b := by
        intro b hb
        subst hb
        cases x with
        | none => exact ihacc b rfl
        | some fb =>
            by_cases hlt : effClick fb < effClick b
            · exact le_trans (ihacc fb (by simp [bestStep, hlt])) (le_of_lt hlt)
            · exact ihacc b (by simp [bestStep, hlt])
      refine ⟨?_, hstep⟩
      intro g hg
      rcases List.mem_cons.mp hg with rfl | hg
      · cases acc with
        | none => exact ihacc g (by simp [bestStep])
        | some b =>
            by_cases hlt : effClick g < effClick b
            · exact ihacc g (by simp [bestStep, hlt])
            · exact le_trans (ihacc b (by simp [bestStep, hlt]))
                (not_lt.mp hlt)
      · exact ihall g hg

theorem bestFb_foldl_none (fbs : List (Option FbRow)) :
    ∀ acc : Option FbRow,
      fbs.foldl bestStep acc = none ↔
        acc = none ∧ ∀ x ∈ fbs, x = none := by
  induction fbs with
  | nil => intro acc; simp
  | cons x xs ih =>
      intro acc
      rw [List.foldl_cons, ih (bestStep acc x)]
      cases x with
      | none => simp [bestStep]
      | some fb =>
          cases acc with
          | none => simp [bestStep]
          | some b =>
              by_cases hlt : effClick fb < effClick b <;>
                simp [bestStep, hlt]

/-- Claim C3: the importance of a document is the stated weighted sum of
session-normalized signals, with `V = 1 - (clickOrder-1)/maxClickOrder`
when a click order is present and `0` otherwise, the maxima taken over the
session's feedback rows and floored at `1`; the representative feedback of
a document reachable through several sources is an instance with the
smallest effective click order; and documents with no recorded feedback are
omitted from the importance list rather than scored `0`. -/
theorem importance_claim (p : Profile) (rows : List FbRow)
    (docs : List SessionDoc) (d : SessionDoc) (f : FbRow)
    (hd : d ∈ docs) (hbest : bestFb d.fbs = some f) :
    (some f ∈ d.fbs ∧ ∀ g : FbRow, some g ∈ d.fbs → effClick f ≤ effClick g) ∧
    ((d.url, importanceOf p rows f) ∈ sessionImportance p rows docs) ∧
    (importanceOf p rows f =
        p.weight_v * signalV f (maxClickOrder rows) +
        p.weight_t * ((f.dwell_time_ms.getD 0 : ℚ) / (maxDwell rows : ℚ)) +
        p.weight_p * (if f.printed then 1 else 0) +
        p.weight_s * (if f.saved then 1 else 0) +
        p.weight_b * (if f.bookmarked then 1 else 0) +
        p.weight_e * (if f.emailed then 1 else 0) +
        p.weight_c * ((f.copy_paste_chars.getD 0 : ℚ) / (maxCopy rows : ℚ))) ∧
    (∀ c : ℕ, f.click_order = some c → 1 ≤ c →
        signalV f (maxClickOrder rows) =
          1 - ((c : ℚ) - 1) / (maxClickOrder rows : ℚ)) ∧
    (f.click_order = none → signalV f (maxClickOrder rows) = 0) ∧
    (1 ≤ maxClickOrder rows ∧ 1 ≤ maxDwell rows ∧ 1 ≤ maxCopy rows) ∧
    (∀ g ∈ rows, g.click_order.getD 0 ≤ maxClickOrder rows ∧
        g.dwell_time_ms.getD 0 ≤ maxDwell rows ∧
        g.copy_paste_chars.getD 0 ≤ maxCopy rows) ∧
    (∀ d' : SessionDoc, (∀ ofb ∈ d'.fbs, ofb = none) → bestFb d'.fbs = none) := by
  refine ⟨?_, ?_, rfl, ?_, ?_, ?_, ?_, ?_⟩
  · have hmem := bestFb_foldl_mem d.fbs none f hbest
    have hmin := bestFb_foldl_min d.fbs none f hbest
    refine ⟨?_, hmin.1⟩
    rcases hmem with hmem | hmem
    · exact hmem
    · simp at hmem
  · refine List.mem_filterMap.mpr ⟨d, hd, ?_⟩
    rw [hbest]
    rfl
  · intro c hc h1c
    have hc0 : ¬ c = 0 := by omega
    simp [signalV, hc, hc0]
  · intro hc
    simp [signalV, hc]
  · exact ⟨le_foldl_max_init _ 1, le_foldl_max_init _ 1, le_foldl_max_init _ 1⟩
  · intro g hg
    exact ⟨mem_le_foldl_max _ 1 _ (List.mem_map_of_mem _ hg),
      mem_le_foldl_max _ 1 _ (List.mem_map_of_mem _ hg),
      mem_le_foldl_max _ 1 _ (List.mem_map_of_mem _ hg)⟩
  · intro d' hall
    exact (bestFb_foldl_none d'.fbs none).mpr ⟨rfl, hall⟩

/-- The spec's §8 example row: first click, 5000 ms dwell, saved. -/
def fbW : FbRow :=
  { click_order := some 1, dwell_time_ms := some 5000, printed := false
    saved := true, bookmarked := false, emailed := false
    copy_paste_chars := none }

/-- All weights `1`. -/
def profW : Profile := ⟨1, 1, 1, 1, 1, 1, 1⟩

/-- Witness for C3 on the spec's worked example: the document scores
`V + T + S = 3` and enters the session importance list. -/
theorem importance_claim_witness :
    ("u", importanceOf profW [fbW] fbW) ∈
        sessionImportance profW [fbW] [⟨"u", [some fbW]⟩] ∧
    importanceOf profW [fbW] fbW = 3 :=
  ⟨(importance_claim profW [fbW] [⟨"u", [some fbW]⟩] ⟨"u", [some fbW]⟩
      fbW (by decide) (by decide)).2.1,
    by norm_num [importanceOf, profW, fbW, signalV, signalT, signalC,
      maxClickOrder, maxDwell, maxCopy]⟩

/-! ### The MBV sign slip (claim C6)

`aggregateMBV`'s comment says "This favors docs ranked consistently well
across engines", but the score `-(mean - 0.5*sqrt(variance))`, sorted
descending, *rewards* variance: at equal mean rank the document with the
larger variance gets the larger score.  The following theorem evaluates the
code at a two-document failing input. -/

/-- Inconsistently ranked document: ranks 1 and 3, mean 2, variance 1. -/
def docIncons : MergedDoc :=
  { url := "a", title := "", snippet := "",
    engines := [("google", 1), ("bing", 3)] }

/-- Consistently ranked document: ranks 2 and 2, mean 2, variance 0. -/
def docCons : MergedDoc :=
  { url := "b", title := "", snippet := "",
    engines := [("google", 2), ("bing", 2)] }

/-- Claim C6, evaluated at the failing input: both documents have mean rank
2 and the consistent one has strictly smaller variance, yet the code scores
the consistent document strictly *lower* and ranks it second —
contradicting both the claim's "documents ranked both well and consistently
win" and the source's own comment. -/
theorem mbv_consistency_bug :
    meanRank ["google", "bing"] docIncons = 2 ∧
    meanRank ["google", "bing"] docCons = 2 ∧
    varRank ["google", "bing"] docIncons = 1 ∧
    varRank ["google", "bing"] docCons = 0 ∧
    mbvScore ["google", "bing"] docIncons = -(3 / 2) ∧
    mbvScore ["google", "bing"] docCons = -2 ∧
    mbvScore ["google", "bing"] docCons <
      mbvScore ["google", "bing"] docIncons ∧
    aggregateMBV [docIncons, docCons] ["google", "bing"] =
      [docIncons, docCons] := by
  have hga : getRank docIncons "google" = 1 := rfl
  have hba : getRank docIncons "bing" = 3 := rfl
  have hgb : getRank docCons "google" = 2 := rfl
  have hbb : getRank docCons "bing" = 2 := rfl
  have hmA : meanRank ["google", "bing"] docIncons = 2 := by
    simp [meanRank, hga, hba]
    norm_num
  have hmB : meanRank ["google", "bing"] docCons = 2 := by
    simp [meanRank, hgb, hbb]
  have hvA : varRank ["google", "bing"] docIncons = 1 := by
    simp [varRank, hga, hba, hmA]
    norm_num
  have hvB : varRank ["google", "bing"] docCons = 0 := by
    simp [varRank, hgb, hbb, hmB]
  have hsA : mbvScore ["google", "bing"] docIncons = -(3 / 2) := by
    rw [mbvScore, hmA, hvA, Real.sqrt_one]
    norm_num
  have hsB : mbvScore ["google", "bing"] docCons = -2 := by
    rw [mbvScore, hmB, hvB, Real.sqrt_zero]
    norm_num
  refine ⟨hmA, hmB, hvA, hvB, hsA, hsB, by rw [hsA, hsB]; norm_num, ?_⟩
  show sortD (mbvScore ["google", "bing"]) [docIncons, docCons] =
    [docIncons, docCons]
  rw [sortD, sortD, sortD, insD, insD]
  rw [if_pos (by rw [hsA, hsB]; norm_num :
    mbvScore ["google", "bing"] docCons ≤
      mbvScore ["google", "bing"] docIncons)]

/-! ### The learning-index merge (update-learning-index) -/

/-- The smoothing constant `alpha = 0.3`. -/
def alpha : ℚ := 3 / 10

/-- `newScore = alpha * importance + (1 - alpha) * oldScore`. -/
def mergeScore (importance old : ℚ) : ℚ :=
  alpha * importance + (1 - alpha) * old

/-- One learning-index upsert for a document: rows with
`importance <= 0` are skipped (`continue`), an existing entry is smoothed,
a missing entry is created with `learned_score = importance`. -/
def mergeEntry (importance : ℚ) (old : Option ℚ) : Option ℚ :=
  if importance ≤ 0 then old
  else
    match old with
    | some s => some (mergeScore importance s)
    | none => some importance

/-- Repeated merges of the same importance value `v` into a starting
score `s`. -/
def smoothIter (v s : ℚ) : ℕ → ℚ
  | 0 => s
  | k + 1 => mergeScore v (smoothIter v s k)

theorem smoothIter_closed (v s : ℚ) :
    ∀ k : ℕ, smoothIter v s k - v = (7 / 10) ^ k * (s - v) := by
  intro k
  induction k with
  | zero => simp [smoothIter]
  | succ k ih =>
      have hstep : smoothIter v s (k + 1) = mergeScore v (smoothIter v s k) :=
        rfl
      rw [hstep, mergeScore, alpha, pow_succ]
      linear_combination (7 / 10 : ℚ) * ih

/-- Claim C4: only positive-importance documents are merged; an existing
entry is smoothed as `0.3*importance + 0.7*old`, a missing one is created
with the raw importance; one smoothing step never leaves the interval
between the old score and the importance; and for a fixed importance `v`,
iterated merging is monotone toward `v` and never overshoots it. -/
theorem learning_merge_claim (imp s : ℚ) (k : ℕ) (hpos : 0 < imp) :
    (∀ (i : ℚ) (e : Option ℚ), i ≤ 0 → mergeEntry i e = e) ∧
    mergeEntry imp none = some imp ∧
    mergeEntry imp (some s) = some (3 / 10 * imp + 7 / 10 * s) ∧
    (min s imp ≤ mergeScore imp s ∧ mergeScore imp s ≤ max s imp) ∧
    (s ≤ imp →
        smoothIter imp s k ≤ smoothIter imp s (k + 1) ∧
        smoothIter imp s k ≤ imp) ∧
    (imp ≤ s →
        smoothIter imp s (k + 1) ≤ smoothIter imp s k ∧
        imp ≤ smoothIter imp s k) := by
  have hnle : ¬ imp ≤ 0 := not_le.mpr hpos
  have hform : mergeScore imp s = 3 / 10 * imp + 7 / 10 * s := by
    rw [mergeScore, alpha]
    ring
  have hk := smoothIter_closed imp s k
  have hk1 := smoothIter_closed imp s (k + 1)
  have hpow : (0 : ℚ) ≤ (7 / 10) ^ k := by positivity
  have hsucc : ((7 : ℚ) / 10) ^ (k + 1) = (7 / 10) ^ k * (7 / 10) :=
    pow_succ _ _
  refine ⟨?_, ?_, ?_, ⟨?_, ?_⟩, ?_, ?_⟩
  · intro i e hi
    simp [mergeEntry, hi]
  · simp [mergeEntry, hnle]
  · simp [mergeEntry, hnle, hform]
  · rcases le_total s imp with h | h
    · rw [min_eq_left h, hform]
      linarith
    · rw [min_eq_right h, hform]
      linarith
  · rcases le_total s imp with h | h
    · rw [max_eq_right h, hform]
      linarith
    · rw [max_eq_left h, hform]
      linarith
  · intro hs
    have hm : (0 : ℚ) ≤ (7 / 10) ^ k * (imp - s) :=
      mul_nonneg hpow (by linarith)
    constructor
    · nlinarith [hk, hk1, hsucc, hm]
    · nlinarith [hk, hm]
  · intro hs
    have hm : (0 : ℚ) ≤ (7 / 10) ^ k * (s - imp) :=
      mul_nonneg hpow (by linarith)
    constructor
    · nlinarith [hk, hk1, hsucc, hm]
    · nlinarith [hk, hm]

/-- Witness for C4 at `importance = 1`, `old = 0`. -/
theorem learning_merge_claim_witness :
    mergeEntry 1 (some 0) = some (3 / 10 * 1 + 7 / 10 * 0) :=
  (learning_merge_claim 1 0 0 (by norm_num)).2.2.1

/-! ### The Spearman SQM computation (compute-sqm)

A document enters the SQM computation with its normalized-url key, its
computed importance, and the native ranks of the engines that reported it
(the `docImportance` array of the source). -/

structure SqmDoc where
  url : String
  importance : ℚ
  engineRanks : List (String × ℕ)
  deriving DecidableEq, Repr

/-- The key under which ranks are stored
(`doc.url.replace(/\/+$/, "").toLowerCase()`). -/
def sqmKey (d : SqmDoc) : String :=
  normalizeUrl d.url

/-- `docImportance.filter((d) => d.engineRanks.has(engine))`. -/
def docsInEngine (docs : List SqmDoc) (engine : String) : List SqmDoc :=
  docs.filter (fun d => (d.engineRanks.lookup engine).isSome)

/-- The subset sorted ascending by the engine's native rank
(`(a.engineRanks.get(engine) ?? 999) - (b.engineRanks.get(engine) ?? 999)`,
a stable ascending sort). -/
def engineSorted (sub : List SqmDoc) (engine : String) : List SqmDoc :=
  sortD (fun d => -(((d.engineRanks.lookup engine).getD 999 : ℤ))) sub

/-- The subset sorted descending by importance
(`b.importance - a.importance`, a stable descending sort). -/
def prefSorted (sub : List SqmDoc) : List SqmDoc :=
  sortD (fun d => d.importance) sub

/-- The 1-based dense rank of `d` in the engine ordering of the subset. -/
def eRank (sub : List SqmDoc) (engine : String) (d : SqmDoc) : ℕ :=
  (engineSorted sub engine).findIdx (fun x => sqmKey x == sqmKey d) + 1

/-- The 1-based dense rank of `d` in the preference ordering of the
subset. -/
def pRank (sub : List SqmDoc) (d : SqmDoc) : ℕ :=
  (prefSorted sub).findIdx (fun x => sqmKey x == sqmKey d) + 1

/-- `Σ dᵢ²`, the sum of squared rank differences over the subset. -/
def sumD2 (sub : List SqmDoc) (engine : String) : ℤ :=
  (sub.map
    (fun d => ((eRank sub engine d : ℤ) - (pRank sub d : ℤ)) ^ 2)).sum

/-- `ρ = 1 - 6·Σd² / (n·(n²-1))` over the engine's subset. -/
def spearmanRho (docs : List SqmDoc) (engine : String) : ℚ :=
  1 - (6 * ((sumD2 (docsInEngine docs engine) engine : ℚ))) /
    (((docsInEngine docs engine).length : ℚ) *
      (((docsInEngine docs engine).length : ℚ) ^ 2 - 1))

/-- Splitting the squared-difference sum against the reflection
`e + p - c`: a pointwise ring identity summed over the list. -/
theorem sum_split (l : List SqmDoc) (e p : SqmDoc → ℤ) (c : ℤ) :
    (l.map (fun d => (e d - p d) ^ 2)).sum =
      2 * (l.map (fun d => (e d) ^ 2)).sum +
      2 * (l.map (fun d => (p d) ^ 2)).sum -
      2 * c * (l.map e).sum - 2 * c * (l.map p).sum +
      (l.length : ℤ) * c ^ 2 -
      (l.map (fun d => (e d + p d - c) ^ 2)).sum := by
  induction l with
  | nil => simp
  | cons x xs ih =>
      simp only [List.map_cons, List.sum_cons, List.length_cons]
      push_cast
      linear_combination ih

theorem sum_sq_nonneg (l : List SqmDoc) (f : SqmDoc → ℤ) :
    0 ≤ (l.map (fun d => (f d) ^ 2)).sum := by
  refine List.sum_nonneg ?_
  intro x hx
  obtain ⟨d, _, rfl⟩ := List.mem_map.mp hx
  exact sq_nonneg _

theorem two_mul_sum_range (n : ℕ) :
    2 * (((List.range n).map (fun i : ℕ => ((i : ℤ) + 1))).sum) =
      (n : ℤ) * ((n : ℤ) + 1) := by
  induction n with
  | zero => simp
  | succ n ih =>
      rw [List.range_succ, List.map_append, List.sum_append]
      push_cast
      simp only [List.map_cons, List.map_nil, List.sum_cons, List.sum_nil]
      linear_combination ih

theorem six_mul_sum_range_sq (n : ℕ) :
    6 * (((List.range n).map (fun i : ℕ => ((i : ℤ) + 1) ^ 2)).sum) =
      (n : ℤ) * ((n : ℤ) + 1) * (2 * (n : ℤ) + 1) := by
  induction n with
  | zero => simp
  | succ n ih =>
      rw [List.range_succ, List.map_append, List.sum_append]
      push_cast
      simp only [List.map_cons, List.map_nil, List.sum_cons, List.sum_nil]
      linear_combination ih

/-- On a list with pairwise distinct keys, the map `d ↦ position of d's
key + 1` enumerates the ranks `1..n`: summing any function of the rank
equals summing it over `1..n`. -/
theorem sum_map_rank (s : List SqmDoc) :
    ∀ g : ℕ → ℤ, (s.map sqmKey).Nodup →
      (s.map
        (fun d => g (s.findIdx (fun x => sqmKey x == sqmKey d) + 1))).sum =
      ((List.range s.length).map (fun i => g (i + 1))).sum := by
  induction s with
  | nil => intro g _; simp
  | cons a t ih =>
      intro g hnd
      rw [List.map_cons, List.nodup_cons] at hnd
      rw [List.map_cons, List.sum_cons]
      have hhead :
          List.findIdx (fun x => sqmKey x == sqmKey a) (a :: t) = 0 := by
        rw [List.findIdx_cons]
        simp
      have htail :
          t.map (fun d =>
            g (List.findIdx (fun x => sqmKey x == sqmKey d) (a :: t) + 1)) =
          t.map (fun d =>
            (fun m => g (m + 1))
              (List.findIdx (fun x => sqmKey x == sqmKey d) t + 1)) := by
        refine List.map_congr_left ?_
        intro d hd
        have hne : (sqmKey a == sqmKey d) = false := by
          refine beq_eq_false_iff_ne.mpr ?_
          intro hcon
          exact hnd.1 (hcon ▸ List.mem_map_of_mem sqmKey hd)
        simp [List.findIdx_cons, hne]
      rw [hhead, htail, ih (fun m => g (m + 1)) hnd.2]
      rw [List.length_cons, List.range_succ_eq_map]
      rw [List.map_cons, List.sum_cons, List.map_map]
      congr 1

theorem sum_eRank (sub : List SqmDoc) (engine : String)
    (hnd : (sub.map sqmKey).Nodup) (g : ℕ → ℤ) :
    (sub.map (fun d => g (eRank sub engine d))).sum =
      ((List.range sub.length).map (fun i => g (i + 1))).sum := by
  have hperm : (engineSorted sub engine).Perm sub :=
    sortD_perm _ sub
  have hnd2 : ((engineSorted sub engine).map sqmKey).Nodup :=
    (hperm.map sqmKey).nodup_iff.mpr hnd
  have h1 :
      (sub.map (fun d => g (eRank sub engine d))).sum =
        ((engineSorted sub engine).map
          (fun d => g (eRank sub engine d))).sum :=
    ((hperm.map _).sum_eq).symm
  rw [h1]
  unfold eRank
  rw [sum_map_rank (engineSorted sub engine) g hnd2, hperm.length_eq]

theorem sum_pRank (sub : List SqmDoc)
    (hnd : (sub.map sqmKey).Nodup) (g : ℕ → ℤ) :
    (sub.map (fun d => g (pRank sub d))).sum =
      ((List.range sub.length).map (fun i => g (i + 1))).sum := by
  have hperm : (prefSorted sub).Perm sub := sortD_perm _ sub
  have hnd2 : ((prefSorted sub).map sqmKey).Nodup :=
    (hperm.map sqmKey).nodup_iff.mpr hnd
  have h1 :
      (sub.map (fun d => g (pRank sub d))).sum =
        ((prefSorted sub).map (fun d => g (pRank sub d))).sum :=
    ((hperm.map _).sum_eq).symm
  rw [h1]
  unfold pRank
  rw [sum_map_rank (prefSorted sub) g hnd2, hperm.length_eq]

/-- The integer core of the Spearman bound: over a subset with pairwise
distinct keys, `Σd² ≥ 0` and `3·Σd² ≤ n(n²-1)` — the latter because both
rank maps enumerate `1..n` and `Σ(e+p-(n+1))² ≥ 0`. -/
theorem rho_core (sub : List SqmDoc) (engine : String)
    (hnd : (sub.map sqmKey).Nodup) :
    0 ≤ sumD2 sub engine ∧
    3 * sumD2 sub engine ≤
      (sub.length : ℤ) * ((sub.length : ℤ) ^ 2 - 1) := by
  constructor
  · exact sum_sq_nonneg sub _
  · have hSe := sum_eRank sub engine hnd (fun m : ℕ => (m : ℤ))
    have hSe2 := sum_eRank sub engine hnd (fun m : ℕ => ((m : ℤ)) ^ 2)
    have hSp := sum_pRank sub hnd (fun m : ℕ => (m : ℤ))
    have hSp2 := sum_pRank sub hnd (fun m : ℕ => ((m : ℤ)) ^ 2)
    have hconv1 :
        ((List.range sub.length).map (fun i : ℕ => (((i + 1 : ℕ)) : ℤ))).sum =
          ((List.range sub.length).map (fun i : ℕ => ((i : ℤ) + 1))).sum := by
      refine congrArg List.sum (List.map_congr_left ?_)
      intro i _
      push_cast
      ring
    have hconv2 :
        ((List.range sub.length).map
          (fun i : ℕ => (((i + 1 : ℕ)) : ℤ) ^ 2)).sum =
          ((List.range sub.length).map
            (fun i : ℕ => ((i : ℤ) + 1) ^ 2)).sum := by
      refine congrArg List.sum (List.map_congr_left ?_)
      intro i _
      push_cast
      ring
    have hU : 2 * (sub.map (fun d => ((eRank sub engine d : ℤ)))).sum =
        (sub.length : ℤ) * ((sub.length : ℤ) + 1) := by
      rw [hSe, hconv1]
      exact two_mul_sum_range sub.length
    have hV : 2 * (sub.map (fun d => ((pRank sub d : ℤ)))).sum =
        (sub.length : ℤ) * ((sub.length : ℤ) + 1) := by
      rw [hSp, hconv1]
      exact two_mul_sum_range sub.length
    have hA : 6 * (sub.map (fun d => ((eRank sub engine d : ℤ)) ^ 2)).sum =
        (sub.length : ℤ) * ((sub.length : ℤ) + 1) *
          (2 * (sub.length : ℤ) + 1) := by
      rw [hSe2, hconv2]
      exact six_mul_sum_range_sq sub.length
    have hB : 6 * (sub.map (fun d => ((pRank sub d : ℤ)) ^ 2)).sum =
        (sub.length : ℤ) * ((sub.length : ℤ) + 1) *
          (2 * (sub.length : ℤ) + 1) := by
      rw [hSp2, hconv2]
      exact six_mul_sum_range_sq sub.length
    have hsplit := sum_split sub (fun d => ((eRank sub engine d : ℤ)))
      (fun d => ((pRank sub d : ℤ))) ((sub.length : ℤ) + 1)
    have hQ0 : 0 ≤ (sub.map
        (fun d => ((eRank sub engine d : ℤ) + (pRank sub d : ℤ) -
          ((sub.length : ℤ) + 1)) ^ 2)).sum := sum_sq_nonneg sub _
    have hkey :
        3 * ((sub.map (fun d =>
            ((eRank sub engine d : ℤ) - (pRank sub d : ℤ)) ^ 2)).sum) +
        3 * ((sub.map (fun d =>
            ((eRank sub engine d : ℤ) + (pRank sub d : ℤ) -
              ((sub.length : ℤ) + 1)) ^ 2)).sum) =
          (sub.length : ℤ) * ((sub.length : ℤ) ^ 2 - 1) := by
      linear_combination 3 * hsplit + hA + hB -
        3 * ((sub.length : ℤ) + 1) * hU - 3 * ((sub.length : ℤ) + 1) * hV
    unfold sumD2
    linarith

/-- Claim C2: for each source with at least two scorable documents (with
pairwise distinct keys, as the deduplication guarantees), the SQM value is
`1 - 6·Σd²/(n(n²-1))` over 1-based dense ranks within the subset; both rank
assignments enumerate `1..n`; the value lies in `[-1, 1]`; and when the
source ordering and the preference ordering of the subset coincide, it
equals `1`. -/
theorem spearman_claim (docs : List SqmDoc) (engine : String)
    (hnd : ((docsInEngine docs engine).map sqmKey).Nodup)
    (hn : 2 ≤ (docsInEngine docs engine).length) :
    (spearmanRho docs engine =
      1 - (6 * ((sumD2 (docsInEngine docs engine) engine : ℚ))) /
        (((docsInEngine docs engine).length : ℚ) *
          (((docsInEngine docs engine).length : ℚ) ^ 2 - 1))) ∧
    (∀ g : ℕ → ℤ,
      ((docsInEngine docs engine).map
        (fun d => g (eRank (docsInEngine docs engine) engine d))).sum =
        ((List.range (docsInEngine docs engine).length).map
          (fun i => g (i + 1))).sum) ∧
    (∀ g : ℕ → ℤ,
      ((docsInEngine docs engine).map
        (fun d => g (pRank (docsInEngine docs engine) d))).sum =
        ((List.range (docsInEngine docs engine).length).map
          (fun i => g (i + 1))).sum) ∧
    (-1 ≤ spearmanRho docs engine) ∧
    (spearmanRho docs engine ≤ 1) ∧
    (engineSorted (docsInEngine docs engine) engine =
        prefSorted (docsInEngine docs engine) →
      spearmanRho docs engine = 1) := by
  obtain ⟨hS0, hup⟩ := rho_core (docsInEngine docs engine) engine hnd
  have hn2 : (2 : ℚ) ≤ ((docsInEngine docs engine).length : ℚ) := by
    exact_mod_cast hn
  have hD : (0 : ℚ) < ((docsInEngine docs engine).length : ℚ) *
      (((docsInEngine docs engine).length : ℚ) ^ 2 - 1) := by
    nlinarith
  have hSq : (0 : ℚ) ≤ ((sumD2 (docsInEngine docs engine) engine : ℤ) : ℚ) := by
    exact_mod_cast hS0
  have h3 : ((3 * sumD2 (docsInEngine docs engine) engine : ℤ) : ℚ) ≤
      (((docsInEngine docs engine).length : ℤ) *
        (((docsInEngine docs engine).length : ℤ) ^ 2 - 1) : ℤ) :=
    Int.cast_le.mpr hup
  push_cast at h3
  refine ⟨rfl, fun g => sum_eRank _ engine hnd g, fun g => sum_pRank _ hnd g,
    ?_, ?_, ?_⟩
  · have hdiv :
        6 * ((sumD2 (docsInEngine docs engine) engine : ℤ) : ℚ) /
          (((docsInEngine docs engine).length : ℚ) *
            (((docsInEngine docs engine).length : ℚ) ^ 2 - 1)) ≤ 2 :=
      (div_le_iff₀ hD).mpr (by linarith)
    unfold spearmanRho
    linarith
  · have hdiv :
        0 ≤ 6 * ((sumD2 (docsInEngine docs engine) engine : ℤ) : ℚ) /
          (((docsInEngine docs engine).length : ℚ) *
            (((docsInEngine docs engine).length : ℚ) ^ 2 - 1)) :=
      div_nonneg (by linarith) (le_of_lt hD)
    unfold spearmanRho
    linarith
  · intro hid
    have heq : ∀ d, eRank (docsInEngine docs engine) engine d =
        pRank (docsInEngine docs engine) d := by
      intro d
      unfold eRank pRank
      rw [hid]
    have hz : sumD2 (docsInEngine docs engine) engine = 0 := by
      unfold sumD2
      have hall : ∀ d ∈ docsInEngine docs engine,
          ((eRank (docsInEngine docs engine) engine d : ℤ) -
            (pRank (docsInEngine docs engine) d : ℤ)) ^ 2 = (0 : ℤ) := by
        intro d _
        rw [heq d]
        ring
      rw [List.map_congr_left hall]
      simp
    unfold spearmanRho
    rw [hz]
    norm_num

/-- First SQM witness document: most important, ranked first. -/
def sqmA : SqmDoc := { url := "a", importance := 2, engineRanks := [("g", 1)] }

/-- Second SQM witness document: less important, ranked second. -/
def sqmB : SqmDoc := { url := "b", importance := 1, engineRanks := [("g", 2)] }

/-- Witness for C2: on a two-document subset the SQM value is within
`[-1, 1]`. -/
theorem spearman_claim_witness :
    -1 ≤ spearmanRho [sqmA, sqmB] "g" ∧ spearmanRho [sqmA, sqmB] "g" ≤ 1 :=
  ⟨(spearman_claim [sqmA, sqmB] "g" (by decide) (by decide)).2.2.2.1,
   (spearman_claim [sqmA, sqmB] "g" (by decide) (by decide)).2.2.2.2.1⟩

end MetaSearch
